import Mathlib

/-!
Verification development for the gouuidv6 library ("Version 6" UUIDs in Go).

A shallow embedding of the core code:
* a UUID (`[16]byte` in Go) is a `List Nat` of 16 byte values, each `< 256`
  (the predicate `WF`);
* Go strings are byte sequences, so strings are also modelled as `List Nat`
  of byte codes;
* machine integers are `Nat` (or `Int` for signed results) with explicit
  `% 2^w` at the points where Go's fixed-width arithmetic can wrap; bit masks
  by a contiguous low mask are written `% 2^k`, shifts are written as
  multiplication/division by powers of two, and bitwise or is kept as `|||`;
* fallible operations (parsers; the panic in `ParseBytes`) return `Option`;
* the process-wide generator state (`lastts`, `clockseq`, `node`,
  `alwaysRandomizeNode`) is an explicit `GenState` threaded through
  `NewFromTime`, and the random source is an explicit `Option Nat` argument
  (the uint64 read from `crypto/rand`, `none` modelling a failed read);
* wall-clock instants are modelled as non-negative Unix nanosecond counts.
-/

namespace Gouuidv6

/-- Lexicographic strict order on byte lists: Go's `bytes.Compare(a, b) < 0`,
which is also Go's `<` on strings (byte-wise lexicographic). -/
def lexLt : List Nat → List Nat → Bool
  | [], [] => false
  | [], _ :: _ => true
  | _ :: _, [] => false
  | a :: as, b :: bs => if a < b then true else if a = b then lexLt as bs else false

/-- Value of a big-endian digit string in base `B`. -/
def valBE (B : Nat) : List Nat → Nat
  | [] => 0
  | x :: xs => x * B ^ xs.length + valBE B xs

/-- Well-formed UUID representation: exactly 16 bytes, each a byte value. -/
def WF (u : List Nat) : Prop := u.length = 16 ∧ ∀ b ∈ u, b < 256

instance (u : List Nat) : Decidable (WF u) := by unfold WF; infer_instance

/-- Go `binary.BigEndian.PutUint64`: the 8 big-endian bytes of a uint64. -/
def putUint64 (x : Nat) : List Nat :=
  [x / 2 ^ 56 % 256, x / 2 ^ 48 % 256, x / 2 ^ 40 % 256, x / 2 ^ 32 % 256,
   x / 2 ^ 24 % 256, x / 2 ^ 16 % 256, x / 2 ^ 8 % 256, x % 256]

/-- Go `binary.BigEndian.PutUint32`. -/
def putUint32 (x : Nat) : List Nat :=
  [x / 2 ^ 24 % 256, x / 2 ^ 16 % 256, x / 2 ^ 8 % 256, x % 256]

/-- Go `binary.BigEndian.PutUint16`. -/
def putUint16 (x : Nat) : List Nat := [x / 2 ^ 8 % 256, x % 256]

/-- Go `binary.BigEndian.Uint64`: big-endian uint64 from the first 8 bytes of a slice. -/
def uint64BE (l : List Nat) : Nat :=
  l.getD 0 0 * 2 ^ 56 + l.getD 1 0 * 2 ^ 48 + l.getD 2 0 * 2 ^ 40 + l.getD 3 0 * 2 ^ 32 +
    l.getD 4 0 * 2 ^ 24 + l.getD 5 0 * 2 ^ 16 + l.getD 6 0 * 2 ^ 8 + l.getD 7 0

/-- Code of the hex digit character Go's `%x` formatting produces (lowercase). -/
def hexDig (d : Nat) : Nat := if d < 10 then 48 + d else 87 + d

/-- Whether `c` is the code of a hexadecimal digit of either case, as accepted by
`fmt`'s `%x` scanning. -/
def isHexDigit (c : Nat) : Bool := (48 ≤ c && c ≤ 57) || (97 ≤ c && c ≤ 102) || (65 ≤ c && c ≤ 70)

/-- Numeric value of a hex digit character code (either case). -/
def hexVal (c : Nat) : Nat :=
  if 48 ≤ c && c ≤ 57 then c - 48 else if 97 ≤ c then c - 87 else c - 55

/-- Hex encoding of a byte slice, two lowercase digits per byte (Go's `%x` on `[]byte`). -/
def hexBytes : List Nat → List Nat
  | [] => []
  | b :: bs => hexDig (b / 16) :: hexDig (b % 16) :: hexBytes bs

/-- Go `UUID.String()`:
`fmt.Sprintf("%08x-%04x-%04x-%04x-%012x", u[:4], u[4:6], u[6:8], u[8:10], u[10:])`.
Formatting a byte slice with `%x` hex-encodes each byte (two digits per byte), so each
group is exactly at its width and the `0`-padding flag never pads; the groups are
joined by `-` (code 45). -/
def goString (u : List Nat) : List Nat :=
  hexBytes (u.take 4) ++ 45 :: hexBytes ((u.drop 4).take 2) ++ 45 ::
    hexBytes ((u.drop 6).take 2) ++ 45 :: hexBytes ((u.drop 8).take 2) ++ 45 ::
      hexBytes (u.drop 10)

/-- Blank/tab skipping done by `fmt`'s scanner before a numeric verb. -/
def skipSpaces : List Nat → List Nat
  | 32 :: s => skipSpaces s
  | 9 :: s => skipSpaces s
  | s => s

/-- Greedy hex scan: consume up to `m` further hex digits, accumulating onto `acc`. -/
def readHexAux : Nat → Nat → List Nat → Nat × List Nat
  | 0, acc, s => (acc, s)
  | _ + 1, acc, [] => (acc, [])
  | m + 1, acc, c :: s =>
    if isHexDigit c then readHexAux m (acc * 16 + hexVal c) s else (acc, c :: s)

/-- One `%NNx` verb of `fmt.Sscanf`: skip blanks, then read between 1 and `max`
hex digits greedily; fails if no hex digit is present. -/
def readHex (max : Nat) (s : List Nat) : Option (Nat × List Nat) :=
  match skipSpaces s with
  | [] => none
  | c :: s1 => if isHexDigit c then some (readHexAux (max - 1) (hexVal c) s1) else none

/-- Literal `-` in an `Sscanf` format: must match exactly. -/
def expectDash : List Nat → Option (List Nat)
  | 45 :: s => some s
  | _ => none

/-- Net effect of the `PutUint` writes at the end of Go `Parse`: bytes 0-3 are the
big-endian uint32 `v1`, bytes 4-5 / 6-7 / 8-9 the big-endian uint16s `v2` / `v3` / `v4`
(these overwrite the first two bytes of the earlier `PutUint64(ret[8:], v5)` write),
and bytes 10-15 are the low 6 bytes of `v5`. -/
def mkUUID (v1 v2 v3 v4 v5 : Nat) : List Nat :=
  putUint32 v1 ++ putUint16 v2 ++ putUint16 v3 ++ putUint16 v4 ++ (putUint64 v5).drop 2

/-- Go `Parse`: `fmt.Sscanf(us, "%08x-%04x-%04x-%04x-%012x", ...)` followed by the
byte writes of `mkUUID`.  `Sscanf` is lenient: each verb reads between 1 and its
width many hex digits, and input after the last verb is not examined. -/
def goParse (s : List Nat) : Option (List Nat) := do
  let (v1, s1) ← readHex 8 s
  let s2 ← expectDash s1
  let (v2, s3) ← readHex 4 s2
  let s4 ← expectDash s3
  let (v3, s5) ← readHex 4 s4
  let s6 ← expectDash s5
  let (v4, s7) ← readHex 4 s6
  let s8 ← expectDash s7
  let (v5, _) ← readHex 12 s8
  pure (mkUUID v1 v2 v3 v4 v5)

/-- Go `ParseBytes`: performs no length check; `bs[8:]` and `binary.BigEndian.Uint64`
panic (modelled as `none`) when the input has fewer than 16 bytes; extra bytes beyond
the 16th are ignored. -/
def parseBytes (bs : List Nat) : Option (List Nat) :=
  if 16 ≤ bs.length then
    some (putUint64 (uint64BE (bs.take 8)) ++ putUint64 (uint64BE ((bs.drop 8).take 8)))
  else none

/-- Go `UUID.Node()`: copies `u[10:]` into bytes 2..7 of a zeroed buffer and reads a
big-endian uint64, i.e. the 48-bit big-endian value of bytes 10-15. -/
def uuidNode (u : List Nat) : Nat := uint64BE ([0, 0] ++ u.drop 10)

/-- Go `UUID.IsNil()`: `(Uint64(u[0:8]) | Uint64(u[8:16])) == 0`. -/
def isNil (u : List Nat) : Bool :=
  (uint64BE (u.take 8) ||| uint64BE (u.drop 8)) == 0

/-- Go `UUID.Compare(to)`: `Uint64(u[:8]) <= Uint64(to[:8])` — only the first
8 bytes participate. -/
def uuidCompare (u v : List Nat) : Bool := uint64BE (u.take 8) ≤ uint64BE (v.take 8)

/-- Go `UUIDSlice.Less(i, j)`: `Uint64(s[i][:8]) < Uint64(s[j][:8])` — the legacy
comparator over the first 8 bytes only. -/
def uuidSliceLess (u v : List Nat) : Bool := uint64BE (u.take 8) < uint64BE (v.take 8)

/-- Go `UUIDB64Slice.Less(i, j)`: `bytes.Compare(s[i][:], s[j][:]) < 0` — full
16-byte lexicographic order. -/
def uuidB64Less (u v : List Nat) : Bool := lexLt u v

/-- Go `tsoff`: UUID static time offset, 100ns ticks between the Gregorian epoch
and the Unix epoch. -/
def tsoff : Nat := 122192928000000000

/-- Reinterpretation of a uint64 bit pattern as a signed int64 (Go `int64(x)`). -/
def toInt64 (x : Nat) : Int :=
  if x % 2 ^ 64 < 2 ^ 63 then ((x % 2 ^ 64 : Nat) : Int) else ((x % 2 ^ 64 : Nat) : Int) - 2 ^ 64

/-- Wrap-around of signed 64-bit arithmetic. -/
def wrapS64 (x : Int) : Int := (x + 2 ^ 63) % 2 ^ 64 - 2 ^ 63

/-- The 60-bit timestamp reconstructed by Go `UUID.Time()`:
`t := ((hi >> 4) & 0xFFFFFFFFFFFFF000) | (0x0FFF & hi)` — the mask keeps bits 12-59
of `hi >> 4` and the two operands are disjoint, so the or is an addition. -/
def timeField (u : List Nat) : Nat :=
  uint64BE (u.take 8) / 16 / 2 ^ 12 * 2 ^ 12 + uint64BE (u.take 8) % 2 ^ 12

/-- Go `UUID.Time()`: checks `u[6]&0xF0 == 0x60 && u[8]&0xC0 == 0x80`; on failure
returns the zero `time.Time{}` (modelled as `none`).  Otherwise computes
`ut := int64(t-tsoff) * 100` in wrapping int64 arithmetic and returns
`time.Unix(ut/1e9, ut%1e9)`, which represents exactly `ut` nanoseconds after the
Unix epoch; the result is modelled as that nanosecond count. -/
def goTime (u : List Nat) : Option Int :=
  if u.getD 6 0 &&& 0xF0 == 0x60 && u.getD 8 0 &&& 0xC0 == 0x80 then
    some (wrapS64 (toInt64 ((timeField u + 2 ^ 64 - tsoff) % 2 ^ 64) * 100))
  else none

/-- Process-wide generator state: `lastts`, `clockseq` (uint32), `node` (uint64),
`alwaysRandomizeNode`. -/
structure GenState where
  lastts : Nat
  clockseq : Nat
  node : Nat
  alwaysRandomizeNode : Bool

/-- Go `tstime(t)`: `tsoff + uint64(t.UnixNano()/100)` in uint64 arithmetic, for an
instant `tNanos` nanoseconds after the Unix epoch. -/
def tstime (tNanos : Nat) : Nat := (tsoff + tNanos / 100) % 2 ^ 64

/-- Go `getRandomNode()`: on a successful random read of the uint64 `x`,
`(x & 0x0000FFFFFFFFFFFF) | 0x0000010000000000` (mask to 48 bits, force the
multicast bit 40); returns 0 when the random source fails. -/
def getRandomNode (rnd : Option Nat) : Nat :=
  match rnd with
  | none => 0
  | some x => x % 2 ^ 64 % 2 ^ 48 ||| 0x0000010000000000

/-- Go `NewFromTime`, first word:
`hi := uint64(((tsval << 4) & 0xFFFFFFFFFFFF0000) | (tsval & 0x0FFF) | 0x6000)`;
the mask keeps bits 16-63 of the (wrapping) shift, written as arithmetic. -/
def genHi (tsval : Nat) : Nat :=
  tsval * 16 % 2 ^ 64 / 2 ^ 16 * 2 ^ 16 ||| tsval % 2 ^ 12 ||| 0x6000

/-- Go `NewFromTime`, second word:
`lo := (uint64(0x8000) << 48) | (uint64(cs&0x3fff) << 48) | nodeVal`. -/
def genLo (cs nodeVal : Nat) : Nat :=
  0x8000 * 2 ^ 48 ||| cs % 2 ^ 14 * 2 ^ 48 ||| nodeVal

/-- Go `NewFromTime(t)` with the generator state and the random draw explicit:
under the lock, bump `clockseq` (uint32) when the clock tied or moved backward and
record `lastts`; resolve the node (fresh random draw when `alwaysRandomizeNode` is
set or the stored node is 0, else the stored node); assemble the 16 bytes. -/
def NewFromTime (tNanos : Nat) (rnd : Option Nat) (s : GenState) : List Nat × GenState :=
  let tsval := tstime tNanos
  let cs := if s.lastts ≥ tsval then (s.clockseq + 1) % 2 ^ 32 else s.clockseq
  let nodeVal := if s.alwaysRandomizeNode || s.node == 0 then getRandomNode rnd else s.node
  (putUint64 (genHi tsval) ++ putUint64 (genLo cs nodeVal),
   ⟨tsval, cs, s.node, s.alwaysRandomizeNode⟩)

/-- Go `SetNode(nodeID)`: `alwaysRandomizeNode = false; node = nodeID`. -/
def setNode (nodeID : Nat) (s : GenState) : GenState :=
  ⟨s.lastts, s.clockseq, nodeID, false⟩

/-- ASCII codes of Go
`Base64UUIDAlphabet = "-0123456789ABCDEFGHIJKLMNOPQRSTUVWXYZ_abcdefghijklmnopqrstuvwxyz"`. -/
def alphabetCodes : List Nat :=
  [45, 48, 49, 50, 51, 52, 53, 54, 55, 56, 57,
   65, 66, 67, 68, 69, 70, 71, 72, 73, 74, 75, 76, 77,
   78, 79, 80, 81, 82, 83, 84, 85, 86, 87, 88, 89, 90,
   95,
   97, 98, 99, 100, 101, 102, 103, 104, 105, 106, 107, 108, 109,
   110, 111, 112, 113, 114, 115, 116, 117, 118, 119, 120, 121, 122]

/-- Character code for a 6-bit group under the alphabet. -/
def alphaCode (d : Nat) : Nat := alphabetCodes.getD d 0

/-- The 6-bit groups of Go `base64.Encoding.Encode` (unpadded): each 3-byte chunk
yields 4 groups; a trailing 2- or 1-byte remainder yields 3 or 2 groups with zero
fill bits.  Shifts and masks on bytes are written as arithmetic. -/
def encGroups : List Nat → List Nat
  | b0 :: b1 :: b2 :: rest =>
    b0 / 4 :: (b0 % 4 * 16 + b1 / 16) :: (b1 % 16 * 4 + b2 / 64) :: b2 % 64 :: encGroups rest
  | [b0, b1] => [b0 / 4, b0 % 4 * 16 + b1 / 16, b1 % 16 * 4]
  | [b0] => [b0 / 4, b0 % 4 * 16]
  | [] => []

/-- Go `UUIDB64.String()`: `Base64UUIDEncoding.EncodeToString(u[:])`. -/
def b64String (u : List Nat) : List Nat := (encGroups u).map alphaCode

/-- Go base64 `decodeMap` lookup: index of character `c` in the alphabet,
`none` for a character outside the alphabet (`CorruptInputError`). -/
def alphaIdx (c : Nat) : Option Nat := alphabetCodes.findIdx? (· == c)

/-- Go base64 decode of a 6-bit group sequence into bytes (non-strict mode): each
4-group quantum yields 3 bytes; a final quantum of 3 or 2 groups yields 2 or 1
bytes (trailing fill bits ignored); a single leftover group is a
`CorruptInputError`. -/
def decGroups : List Nat → Option (List Nat)
  | d0 :: d1 :: d2 :: d3 :: rest => do
    let bs ← decGroups rest
    pure ((d0 * 4 + d1 / 16) :: (d1 % 16 * 16 + d2 / 4) :: (d2 % 4 * 64 + d3) :: bs)
  | [d0, d1, d2] => some [d0 * 4 + d1 / 16, d1 % 16 * 16 + d2 / 4]
  | [d0, d1] => some [d0 * 4 + d1 / 16]
  | [_] => none
  | [] => some []

/-- Go `ParseB64`: `Base64UUIDEncoding.DecodeString(us)` then `copy(ret[:], b)` into a
zeroed 16-byte value — no length check, extra decoded bytes are dropped and missing
ones remain zero. -/
def parseB64 (s : List Nat) : Option (List Nat) := do
  let digits ← s.mapM alphaIdx
  let bs ← decGroups digits
  pure (bs.take 16 ++ List.replicate (16 - bs.length) 0)

/-- Hex digit list predicate (for describing `Sscanf`'s accepted shapes). -/
def allHex (ds : List Nat) : Bool := ds.all isHexDigit

/-- Value of a hex digit character string, most significant first. -/
def hexListVal (ds : List Nat) : Nat := ds.foldl (fun a c => a * 16 + hexVal c) 0

/-! ### Generic lemmas about big-endian values and lexicographic order -/

theorem valBE_lt (B : Nat) : ∀ l : List Nat, (∀ b ∈ l, b < B) → valBE B l < B ^ l.length := by
  intro l
  induction l with
  | nil => intro _; simp [valBE]
  | cons x xs ih =>
    intro h
    have hx : x < B := h x (by simp)
    have hxs := ih (fun b hb => h b (by simp [hb]))
    simp only [valBE, List.length_cons, pow_succ]
    calc x * B ^ xs.length + valBE B xs < x * B ^ xs.length + B ^ xs.length := by omega
      _ = (x + 1) * B ^ xs.length := by ring
      _ ≤ B * B ^ xs.length := Nat.mul_le_mul_right _ hx
      _ = B ^ xs.length * B := by ring

theorem valBE_append (B : Nat) (xs ys : List Nat) :
    valBE B (xs ++ ys) = valBE B xs * B ^ ys.length + valBE B ys := by
  induction xs with
  | nil => simp [valBE]
  | cons x xs ih =>
    simp only [List.cons_append, valBE, List.append_eq, ih, List.length_append, pow_add]
    ring

theorem lexLt_iff_val (B : Nat) : ∀ xs ys : List Nat, xs.length = ys.length →
    (∀ b ∈ xs, b < B) → (∀ b ∈ ys, b < B) →
    (lexLt xs ys = true ↔ valBE B xs < valBE B ys) := by
  intro xs
  induction xs with
  | nil =>
    intro ys h _ _
    cases ys with
    | nil => simp [lexLt, valBE]
    | cons y ys => simp at h
  | cons x xs ih =>
    intro ys h hx hy
    cases ys with
    | nil => simp at h
    | cons y ys =>
      have hlen : xs.length = ys.length := by simpa using h
      have hx1 : x < B := hx x (by simp)
      have hy1 : y < B := hy y (by simp)
      have hvx := valBE_lt B xs (fun b hb => hx b (by simp [hb]))
      have hvy := valBE_lt B ys (fun b hb => hy b (by simp [hb]))
      rw [hlen] at hvx
      simp only [lexLt, valBE, hlen]
      rcases Nat.lt_trichotomy x y with hlt | heq | hgt
      · rw [if_pos hlt]
        have hcalc : x * B ^ ys.length + valBE B xs < y * B ^ ys.length + valBE B ys :=
          calc x * B ^ ys.length + valBE B xs < x * B ^ ys.length + B ^ ys.length := by omega
            _ = (x + 1) * B ^ ys.length := by ring
            _ ≤ y * B ^ ys.length := Nat.mul_le_mul_right _ hlt
            _ ≤ y * B ^ ys.length + valBE B ys := Nat.le_add_right _ _
        simp [hcalc]
      · subst heq
        rw [if_neg (lt_irrefl x), if_pos rfl]
        have := ih ys hlen (fun b hb => hx b (by simp [hb])) (fun b hb => hy b (by simp [hb]))
        rw [this]
        omega
      · have hne : x ≠ y := ne_of_gt hgt
        rw [if_neg (Nat.lt_asymm hgt), if_neg hne]
        have hcalc : y * B ^ ys.length + valBE B ys < x * B ^ ys.length + valBE B xs :=
          calc y * B ^ ys.length + valBE B ys < y * B ^ ys.length + B ^ ys.length := by omega
            _ = (y + 1) * B ^ ys.length := by ring
            _ ≤ x * B ^ ys.length := Nat.mul_le_mul_right _ hgt
            _ ≤ x * B ^ ys.length + valBE B xs := Nat.le_add_right _ _
        constructor
        · intro hfalse; cases hfalse
        · intro hcon; exact absurd hcon (Nat.lt_asymm hcalc)

theorem lexLt_map (f : Nat → Nat) (N : Nat) (hf : ∀ i j, i < j → j < N → f i < f j) :
    ∀ xs ys : List Nat, (∀ b ∈ xs, b < N) → (∀ b ∈ ys, b < N) →
      lexLt (xs.map f) (ys.map f) = lexLt xs ys := by
  intro xs
  induction xs with
  | nil => intro ys _ _; cases ys <;> simp [lexLt]
  | cons x xs ih =>
    intro ys hx hy
    cases ys with
    | nil => simp [lexLt]
    | cons y ys =>
      have hx1 : x < N := hx x (by simp)
      have hy1 : y < N := hy y (by simp)
      simp only [List.map_cons, lexLt]
      rcases Nat.lt_trichotomy x y with hlt | heq | hgt
      · rw [if_pos hlt, if_pos (hf x y hlt hy1)]
      · subst heq
        rw [if_neg (lt_irrefl x), if_neg (lt_irrefl (f x)), if_pos rfl, if_pos rfl]
        exact ih ys (fun b hb => hx b (by simp [hb])) (fun b hb => hy b (by simp [hb]))
      · have h2 : f y < f x := hf y x hgt hx1
        rw [if_neg (Nat.lt_asymm hgt), if_neg (Nat.lt_asymm h2),
          if_neg (ne_of_gt hgt), if_neg (ne_of_gt h2)]

theorem putUint64_lt (x : Nat) : ∀ b ∈ putUint64 x, b < 256 := by
  intro b hb
  simp [putUint64] at hb
  omega

theorem valBE_putUint64 (x : Nat) : valBE 256 (putUint64 x) = x % 2 ^ 64 := by
  show x / 2 ^ 56 % 256 * 256 ^ 7 + (x / 2 ^ 48 % 256 * 256 ^ 6 + (x / 2 ^ 40 % 256 * 256 ^ 5 +
    (x / 2 ^ 32 % 256 * 256 ^ 4 + (x / 2 ^ 24 % 256 * 256 ^ 3 + (x / 2 ^ 16 % 256 * 256 ^ 2 +
    (x / 2 ^ 8 % 256 * 256 ^ 1 + (x % 256 * 256 ^ 0 + 0))))))) = x % 2 ^ 64
  norm_num
  omega

theorem uint64BE_putUint64 (x : Nat) : uint64BE (putUint64 x) = x % 2 ^ 64 := by
  show x / 2 ^ 56 % 256 * 2 ^ 56 + x / 2 ^ 48 % 256 * 2 ^ 48 + x / 2 ^ 40 % 256 * 2 ^ 40 +
    x / 2 ^ 32 % 256 * 2 ^ 32 + x / 2 ^ 24 % 256 * 2 ^ 24 + x / 2 ^ 16 % 256 * 2 ^ 16 +
    x / 2 ^ 8 % 256 * 2 ^ 8 + x % 256 = x % 2 ^ 64
  omega

theorem take8_append (x : Nat) (r : List Nat) : (putUint64 x ++ r).take 8 = putUint64 x := rfl

theorem drop8_append (x : Nat) (r : List Nat) : (putUint64 x ++ r).drop 8 = r := rfl

theorem or_split (k a b c : Nat) (hb : b < 2 ^ k) (hc : c < 2 ^ k) :
    (2 ^ k * a + b) ||| c = 2 ^ k * a + (b ||| c) := by
  rw [Nat.mul_add_lt_is_or hb a, Nat.or_assoc,
    ← Nat.mul_add_lt_is_or (Nat.or_lt_two_pow hb hc) a]

theorem genHi_eq (tsval : Nat) :
    genHi tsval = tsval * 16 % 2 ^ 64 / 2 ^ 16 * 2 ^ 16 + 0x6000 + tsval % 2 ^ 12 := by
  unfold genHi
  generalize tsval * 16 % 2 ^ 64 / 2 ^ 16 = q
  generalize hm : tsval % 2 ^ 12 = m
  have h0 : m < 2 ^ 12 := by omega
  have h1 : m < 2 ^ 16 := by omega
  have h2 : (0x6000 : Nat) < 2 ^ 16 := by norm_num
  rw [Nat.mul_comm q (2 ^ 16), ← Nat.mul_add_lt_is_or h1 q, or_split 16 q m 0x6000 h1 h2]
  have h3 : m ||| 0x6000 = 0x6000 + m := by
    rw [Nat.or_comm, show (0x6000 : Nat) = 2 ^ 12 * 6 by norm_num,
      ← Nat.mul_add_lt_is_or h0 6]
  rw [h3]
  omega

theorem genLo_eq (cs nodeVal : Nat) (h : nodeVal < 2 ^ 48) :
    genLo cs nodeVal = 2 ^ 63 + cs % 2 ^ 14 * 2 ^ 48 + nodeVal := by
  unfold genLo
  generalize hc : cs % 2 ^ 14 = c
  have hc14 : c < 2 ^ 14 := by omega
  have h1 : c * 2 ^ 48 < 2 ^ 63 := by omega
  rw [show (0x8000 : Nat) * 2 ^ 48 = 2 ^ 63 * 1 by norm_num, ← Nat.mul_add_lt_is_or h1 1,
    show 2 ^ 63 * 1 + c * 2 ^ 48 = 2 ^ 48 * (2 ^ 15 + c) by ring,
    ← Nat.mul_add_lt_is_or h (2 ^ 15 + c)]
  ring

theorem getRandomNode_lt (rnd : Option Nat) : getRandomNode rnd < 2 ^ 48 := by
  cases rnd with
  | none => simp [getRandomNode]
  | some x =>
    simp only [getRandomNode]
    exact Nat.or_lt_two_pow (Nat.mod_lt _ (by norm_num)) (by norm_num)

theorem genHi_lt (tsval : Nat) : genHi tsval < 2 ^ 64 := by
  rw [genHi_eq]
  have h1 : tsval * 16 % 2 ^ 64 / 2 ^ 16 < 2 ^ 48 := by omega
  omega

theorem genLo_lt (cs nodeVal : Nat) (h : nodeVal < 2 ^ 64) : genLo cs nodeVal < 2 ^ 64 := by
  unfold genLo
  apply Nat.or_lt_two_pow _ h
  apply Nat.or_lt_two_pow (by norm_num)
  omega

theorem exists_cons_of_length {l : List Nat} {n : Nat} (h : l.length = n + 1) :
    ∃ a t, l = a :: t ∧ t.length = n := by
  cases l with
  | nil => simp at h
  | cons a t => exact ⟨a, t, rfl, by simpa using h⟩

theorem len16_explicit {l : List Nat} (h : l.length = 16) :
    ∃ b0 b1 b2 b3 b4 b5 b6 b7 b8 b9 b10 b11 b12 b13 b14 b15,
      l = [b0, b1, b2, b3, b4, b5, b6, b7, b8, b9, b10, b11, b12, b13, b14, b15] := by
  obtain ⟨b0, t0, rfl, h0⟩ := exists_cons_of_length h
  obtain ⟨b1, t1, rfl, h1⟩ := exists_cons_of_length h0
  obtain ⟨b2, t2, rfl, h2⟩ := exists_cons_of_length h1
  obtain ⟨b3, t3, rfl, h3⟩ := exists_cons_of_length h2
  obtain ⟨b4, t4, rfl, h4⟩ := exists_cons_of_length h3
  obtain ⟨b5, t5, rfl, h5⟩ := exists_cons_of_length h4
  obtain ⟨b6, t6, rfl, h6⟩ := exists_cons_of_length h5
  obtain ⟨b7, t7, rfl, h7⟩ := exists_cons_of_length h6
  obtain ⟨b8, t8, rfl, h8⟩ := exists_cons_of_length h7
  obtain ⟨b9, t9, rfl, h9⟩ := exists_cons_of_length h8
  obtain ⟨b10, t10, rfl, h10⟩ := exists_cons_of_length h9
  obtain ⟨b11, t11, rfl, h11⟩ := exists_cons_of_length h10
  obtain ⟨b12, t12, rfl, h12⟩ := exists_cons_of_length h11
  obtain ⟨b13, t13, rfl, h13⟩ := exists_cons_of_length h12
  obtain ⟨b14, t14, rfl, h14⟩ := exists_cons_of_length h13
  obtain ⟨b15, t15, rfl, h15⟩ := exists_cons_of_length h14
  rw [List.length_eq_zero] at h15
  subst h15
  exact ⟨b0, b1, b2, b3, b4, b5, b6, b7, b8, b9, b10, b11, b12, b13, b14, b15, rfl⟩

theorem lor_ne_zero_right (a b : Nat) (h : b ≠ 0) : a ||| b ≠ 0 := by
  intro h0
  apply h
  apply Nat.eq_of_testBit_eq
  intro i
  have hbit := congrArg (Nat.testBit · i) h0
  simp only [Nat.testBit_or, Nat.zero_testBit, Bool.or_eq_false_iff] at hbit
  simp [hbit.2]

/-! ### Lemmas about the canonical hex codec -/

theorem isHexDigit_bounds {c : Nat} (h : isHexDigit c = true) : 48 ≤ c ∧ c ≤ 102 := by
  simp [isHexDigit] at h
  omega

theorem skipSpaces_cons {c : Nat} (s : List Nat) (h1 : c ≠ 32) (h2 : c ≠ 9) :
    skipSpaces (c :: s) = c :: s := by
  unfold skipSpaces
  split <;> simp_all

theorem hexDig_lt16_facts : ∀ d, d < 16 → isHexDigit (hexDig d) = true ∧ hexVal (hexDig d) = d := by
  decide

theorem readHexAux_append : ∀ (ds : List Nat) (m acc : Nat) (s : List Nat),
    allHex ds = true →
    readHexAux (ds.length + m) acc (ds ++ s) =
      readHexAux m (ds.foldl (fun a c => a * 16 + hexVal c) acc) s := by
  intro ds
  induction ds with
  | nil => intro m acc s _; simp
  | cons d ds ih =>
    intro m acc s hhex
    simp only [allHex, List.all_cons, Bool.and_eq_true] at hhex
    have h1 : (d :: ds).length + m = ds.length + m + 1 := by simp [Nat.add_right_comm]
    rw [h1]
    show readHexAux (ds.length + m + 1) acc (d :: (ds ++ s)) = _
    simp only [readHexAux, if_pos hhex.1, List.foldl_cons]
    exact ih m (acc * 16 + hexVal d) s hhex.2

theorem readHex_exact (max : Nat) (ds s : List Nat) (hne : ds ≠ []) (hlen : ds.length = max)
    (hhex : allHex ds = true) :
    readHex max (ds ++ s) = some (hexListVal ds, s) := by
  subst hlen
  cases ds with
  | nil => exact absurd rfl hne
  | cons d ds =>
    simp only [allHex, List.all_cons, Bool.and_eq_true] at hhex
    obtain ⟨hd, hds⟩ := hhex
    have hb := isHexDigit_bounds hd
    unfold readHex
    rw [List.cons_append, skipSpaces_cons _ (by omega) (by omega)]
    simp only [if_pos hd]
    have h1 : (d :: ds).length - 1 = ds.length + 0 := by simp
    rw [h1, readHexAux_append ds 0 (hexVal d) s hds]
    simp only [readHexAux, hexListVal, List.foldl_cons, Nat.zero_mul, Nat.zero_add]

theorem hexBytes_allHex : ∀ bs : List Nat, (∀ b ∈ bs, b < 256) → allHex (hexBytes bs) = true := by
  intro bs
  induction bs with
  | nil => intro _; rfl
  | cons b bs ih =>
    intro h
    have hb : b < 256 := h b (by simp)
    simp only [hexBytes, allHex, List.all_cons, Bool.and_eq_true]
    exact ⟨(hexDig_lt16_facts _ (by omega)).1, (hexDig_lt16_facts _ (by omega)).1,
      ih (fun x hx => h x (by simp [hx]))⟩

theorem hexBytes_foldl : ∀ (bs : List Nat) (a : Nat), (∀ b ∈ bs, b < 256) →
    (hexBytes bs).foldl (fun x c => x * 16 + hexVal c) a = a * 256 ^ bs.length + valBE 256 bs := by
  intro bs
  induction bs with
  | nil => intro a _; simp [hexBytes, valBE]
  | cons b bs ih =>
    intro a h
    have hb : b < 256 := h b (by simp)
    simp only [hexBytes, List.foldl_cons]
    rw [show (a * 16 + hexVal (hexDig (b / 16))) * 16 + hexVal (hexDig (b % 16)) = a * 256 + b by
      rw [(hexDig_lt16_facts (b / 16) (by omega)).2, (hexDig_lt16_facts (b % 16) (by omega)).2]
      omega]
    rw [ih _ (fun x hx => h x (by simp [hx]))]
    simp only [valBE, List.length_cons, pow_succ]
    ring

theorem hexListVal_hexBytes (bs : List Nat) (h : ∀ b ∈ bs, b < 256) :
    hexListVal (hexBytes bs) = valBE 256 bs := by
  unfold hexListVal
  rw [hexBytes_foldl bs 0 h]
  simp

theorem putUint32_valBE (a b c d : Nat) (ha : a < 256) (hb : b < 256) (hc : c < 256)
    (hd : d < 256) : putUint32 (valBE 256 [a, b, c, d]) = [a, b, c, d] := by
  have hv : valBE 256 [a, b, c, d] = a * 16777216 + b * 65536 + c * 256 + d := by
    show a * 256 ^ 3 + (b * 256 ^ 2 + (c * 256 ^ 1 + (d * 256 ^ 0 + 0))) = _
    norm_num <;> ring
  rw [hv]
  simp only [putUint32, List.cons.injEq, and_true]
  refine ⟨?_, ?_, ?_, ?_⟩ <;> omega

theorem putUint16_valBE (a b : Nat) (ha : a < 256) (hb : b < 256) :
    putUint16 (valBE 256 [a, b]) = [a, b] := by
  have hv : valBE 256 [a, b] = a * 256 + b := by
    show a * 256 ^ 1 + (b * 256 ^ 0 + 0) = _
    norm_num
  rw [hv]
  simp only [putUint16, List.cons.injEq, and_true]
  refine ⟨?_, ?_⟩ <;> omega

theorem putUint64_valBE6 (a b c d e f : Nat) (ha : a < 256) (hb : b < 256) (hc : c < 256)
    (hd : d < 256) (he : e < 256) (hf : f < 256) :
    (putUint64 (valBE 256 [a, b, c, d, e, f])).drop 2 = [a, b, c, d, e, f] := by
  have hv : valBE 256 [a, b, c, d, e, f]
      = a * 1099511627776 + b * 4294967296 + c * 16777216 + d * 65536 + e * 256 + f := by
    show a * 256 ^ 5 + (b * 256 ^ 4 + (c * 256 ^ 3 + (d * 256 ^ 2 +
      (e * 256 ^ 1 + (f * 256 ^ 0 + 0))))) = _
    norm_num <;> ring
  rw [hv]
  simp only [putUint64, List.drop_succ_cons, List.drop_zero, List.cons.injEq, and_true]
  refine ⟨?_, ?_, ?_, ?_, ?_, ?_⟩ <;> omega

/-! ### Lemmas about the compact order-preserving codec -/

theorem encGroups_len1 : ∀ u : List Nat, u.length % 3 = 1 →
    (encGroups u).length = u.length / 3 * 4 + 2 := by
  intro u
  induction u using encGroups.induct with
  | case1 b0 b1 b2 rest ih =>
    intro h
    simp only [List.length_cons] at h ⊢
    simp only [encGroups, List.length_cons]
    rw [ih (by omega)]
    omega
  | case2 b0 b1 => intro h; simp at h
  | case3 b0 => intro _; simp [encGroups]
  | case4 => intro h; simp at h

theorem encGroups_lt : ∀ u : List Nat, (∀ b ∈ u, b < 256) → ∀ d ∈ encGroups u, d < 64 := by
  intro u
  induction u using encGroups.induct with
  | case1 b0 b1 b2 rest ih =>
    intro h d hd
    have h0 : b0 < 256 := h b0 (by simp)
    have h1 : b1 < 256 := h b1 (by simp)
    have h2 : b2 < 256 := h b2 (by simp)
    simp only [encGroups, List.mem_cons] at hd
    rcases hd with rfl | rfl | rfl | rfl | hd
    · omega
    · omega
    · omega
    · omega
    · exact ih (fun x hx => h x (by simp [hx])) d hd
  | case2 b0 b1 =>
    intro h d hd
    have h0 : b0 < 256 := h b0 (by simp)
    have h1 : b1 < 256 := h b1 (by simp)
    simp only [encGroups, List.mem_cons, List.not_mem_nil, or_false] at hd
    omega
  | case3 b0 =>
    intro h d hd
    have h0 : b0 < 256 := h b0 (by simp)
    simp only [encGroups, List.mem_cons, List.not_mem_nil, or_false] at hd
    omega
  | case4 => intro _ d hd; simp [encGroups] at hd

theorem encGroups_pow (u : List Nat) (h : u.length % 3 = 1) :
    (64 : Nat) ^ (encGroups u).length = 16 * 256 ^ u.length := by
  obtain ⟨q, hq⟩ : ∃ q, u.length = 3 * q + 1 := ⟨u.length / 3, by omega⟩
  rw [encGroups_len1 u h, hq]
  have h3 : (3 * q + 1) / 3 = q := by omega
  rw [h3, show q * 4 + 2 = 4 * q + 2 by ring, pow_add, pow_mul, pow_add, pow_mul]
  norm_num
  ring

theorem encGroups_val1 : ∀ u : List Nat, u.length % 3 = 1 → (∀ b ∈ u, b < 256) →
    valBE 64 (encGroups u) = 16 * valBE 256 u := by
  intro u
  induction u using encGroups.induct with
  | case1 b0 b1 b2 rest ih =>
    intro hlen h
    have h0 : b0 < 256 := h b0 (by simp)
    have h1 : b1 < 256 := h b1 (by simp)
    have h2 : b2 < 256 := h b2 (by simp)
    have hlen3 : rest.length % 3 = 1 := by simp only [List.length_cons] at hlen; omega
    show valBE 64 ([b0 / 4, b0 % 4 * 16 + b1 / 16, b1 % 16 * 4 + b2 / 64, b2 % 64]
      ++ encGroups rest) = 16 * valBE 256 ([b0, b1, b2] ++ rest)
    rw [valBE_append, valBE_append]
    have hcombo : valBE 64 [b0 / 4, b0 % 4 * 16 + b1 / 16, b1 % 16 * 4 + b2 / 64, b2 % 64]
        = b0 * 65536 + b1 * 256 + b2 := by
      show (b0 / 4) * 64 ^ 3 + ((b0 % 4 * 16 + b1 / 16) * 64 ^ 2 +
        ((b1 % 16 * 4 + b2 / 64) * 64 ^ 1 + (b2 % 64 * 64 ^ 0 + 0))) = _
      norm_num
      omega
    have hcombo2 : valBE 256 [b0, b1, b2] = b0 * 65536 + b1 * 256 + b2 := by
      show b0 * 256 ^ 2 + (b1 * 256 ^ 1 + (b2 * 256 ^ 0 + 0)) = _
      norm_num <;> ring
    rw [hcombo, hcombo2, ih hlen3 (fun x hx => h x (by simp [hx])), encGroups_pow rest hlen3]
    ring
  | case2 b0 b1 => intro hlen; simp at hlen
  | case3 b0 =>
    intro _ h
    have h0 : b0 < 256 := h b0 (by simp)
    show (b0 / 4) * 64 ^ 1 + (b0 % 4 * 16 * 64 ^ 0 + 0) = 16 * (b0 * 256 ^ 0 + 0)
    norm_num
    omega
  | case4 => intro hlen; simp at hlen

theorem alphaCode_mono_aux : ∀ j, j < 64 → ∀ i, i < j → alphaCode i < alphaCode j := by decide

theorem alphaCode_mono (i j : Nat) (h1 : i < j) (h2 : j < 64) : alphaCode i < alphaCode j :=
  alphaCode_mono_aux j h2 i h1

theorem alphaIdx_alphaCode : ∀ d, d < 64 → alphaIdx (alphaCode d) = some d := by decide

theorem mapM_alphaIdx : ∀ ds : List Nat, (∀ d ∈ ds, d < 64) →
    (ds.map alphaCode).mapM alphaIdx = some ds := by
  intro ds
  induction ds with
  | nil => intro _; rfl
  | cons d ds ih =>
    intro h
    have hd : d < 64 := h d (by simp)
    simp only [List.map_cons, List.mapM_cons]
    rw [alphaIdx_alphaCode d hd, ih (fun x hx => h x (by simp [hx]))]
    rfl

theorem decGroups_encGroups : ∀ u : List Nat, (∀ b ∈ u, b < 256) →
    decGroups (encGroups u) = some u := by
  intro u
  induction u using encGroups.induct with
  | case1 b0 b1 b2 rest ih =>
    intro h
    have h0 : b0 < 256 := h b0 (by simp)
    have h1 : b1 < 256 := h b1 (by simp)
    have h2 : b2 < 256 := h b2 (by simp)
    show decGroups (b0 / 4 :: (b0 % 4 * 16 + b1 / 16) :: (b1 % 16 * 4 + b2 / 64) :: b2 % 64
      :: encGroups rest) = _
    simp only [decGroups]
    rw [ih (fun x hx => h x (by simp [hx]))]
    show some _ = some (b0 :: b1 :: b2 :: rest)
    congr 1
    simp only [List.cons.injEq, and_true]
    omega
  | case2 b0 b1 =>
    intro h
    have h0 : b0 < 256 := h b0 (by simp)
    have h1 : b1 < 256 := h b1 (by simp)
    show decGroups [b0 / 4, b0 % 4 * 16 + b1 / 16, b1 % 16 * 4] = _
    simp only [decGroups]
    congr 1
    simp only [List.cons.injEq, and_true]
    omega
  | case3 b0 =>
    intro h
    have h0 : b0 < 256 := h b0 (by simp)
    show decGroups [b0 / 4, b0 % 4 * 16] = _
    simp only [decGroups]
    congr 1
    simp only [List.cons.injEq, and_true]
    omega
  | case4 => intro _; rfl

theorem len8_explicit {l : List Nat} (h : l.length = 8) :
    ∃ a0 a1 a2 a3 a4 a5 a6 a7, l = [a0, a1, a2, a3, a4, a5, a6, a7] := by
  obtain ⟨a0, t0, rfl, h0⟩ := exists_cons_of_length h
  obtain ⟨a1, t1, rfl, h1⟩ := exists_cons_of_length h0
  obtain ⟨a2, t2, rfl, h2⟩ := exists_cons_of_length h1
  obtain ⟨a3, t3, rfl, h3⟩ := exists_cons_of_length h2
  obtain ⟨a4, t4, rfl, h4⟩ := exists_cons_of_length h3
  obtain ⟨a5, t5, rfl, h5⟩ := exists_cons_of_length h4
  obtain ⟨a6, t6, rfl, h6⟩ := exists_cons_of_length h5
  obtain ⟨a7, t7, rfl, h7⟩ := exists_cons_of_length h6
  rw [List.length_eq_zero] at h7
  subst h7
  exact ⟨a0, a1, a2, a3, a4, a5, a6, a7, rfl⟩

theorem uint64BE_val8 (l : List Nat) (h : l.length = 8) : uint64BE l = valBE 256 l := by
  obtain ⟨a0, a1, a2, a3, a4, a5, a6, a7, rfl⟩ := len8_explicit h
  show a0 * 2 ^ 56 + a1 * 2 ^ 48 + a2 * 2 ^ 40 + a3 * 2 ^ 32 + a4 * 2 ^ 24 + a5 * 2 ^ 16 +
    a6 * 2 ^ 8 + a7 = a0 * 256 ^ 7 + (a1 * 256 ^ 6 + (a2 * 256 ^ 5 + (a3 * 256 ^ 4 +
      (a4 * 256 ^ 3 + (a5 * 256 ^ 2 + (a6 * 256 ^ 1 + (a7 * 256 ^ 0 + 0)))))))
  norm_num <;> ring

theorem putUint64_uint64BE8 (l : List Nat) (h : l.length = 8) (hb : ∀ b ∈ l, b < 256) :
    putUint64 (uint64BE l) = l := by
  obtain ⟨a0, a1, a2, a3, a4, a5, a6, a7, rfl⟩ := len8_explicit h
  have h0 : a0 < 256 := hb a0 (by simp)
  have h1 : a1 < 256 := hb a1 (by simp)
  have h2 : a2 < 256 := hb a2 (by simp)
  have h3 : a3 < 256 := hb a3 (by simp)
  have h4 : a4 < 256 := hb a4 (by simp)
  have h5 : a5 < 256 := hb a5 (by simp)
  have h6 : a6 < 256 := hb a6 (by simp)
  have h7 : a7 < 256 := hb a7 (by simp)
  have hv : uint64BE [a0, a1, a2, a3, a4, a5, a6, a7]
      = a0 * 72057594037927936 + a1 * 281474976710656 + a2 * 1099511627776 + a3 * 4294967296 +
        a4 * 16777216 + a5 * 65536 + a6 * 256 + a7 := by
    show a0 * 2 ^ 56 + a1 * 2 ^ 48 + a2 * 2 ^ 40 + a3 * 2 ^ 32 + a4 * 2 ^ 24 + a5 * 2 ^ 16 +
      a6 * 2 ^ 8 + a7 = _
    norm_num
  rw [hv]
  simp only [putUint64, List.cons.injEq, and_true]
  omega

/-- Acceptance of the strict five-group shape by the lenient `Sscanf`-based parser:
the shared core of the round-trip and parser-acceptance results. -/
theorem parse_groups (d1 d2 d3 d4 d5 : List Nat)
    (h1 : allHex d1 = true) (l1 : d1.length = 8)
    (h2 : allHex d2 = true) (l2 : d2.length = 4)
    (h3 : allHex d3 = true) (l3 : d3.length = 4)
    (h4 : allHex d4 = true) (l4 : d4.length = 4)
    (h5 : allHex d5 = true) (l5 : d5.length = 12) :
    goParse (d1 ++ 45 :: (d2 ++ 45 :: (d3 ++ 45 :: (d4 ++ 45 :: d5))))
      = some (mkUUID (hexListVal d1) (hexListVal d2) (hexListVal d3) (hexListVal d4)
          (hexListVal d5)) := by
  have hne1 : d1 ≠ [] := by intro hcon; rw [hcon] at l1; simp at l1
  have hne2 : d2 ≠ [] := by intro hcon; rw [hcon] at l2; simp at l2
  have hne3 : d3 ≠ [] := by intro hcon; rw [hcon] at l3; simp at l3
  have hne4 : d4 ≠ [] := by intro hcon; rw [hcon] at l4; simp at l4
  have hne5 : d5 ≠ [] := by intro hcon; rw [hcon] at l5; simp at l5
  have e5 := readHex_exact 12 d5 [] hne5 l5 h5
  rw [List.append_nil] at e5
  have e1 := readHex_exact 8 d1 (45 :: (d2 ++ 45 :: (d3 ++ 45 :: (d4 ++ 45 :: d5)))) hne1 l1 h1
  have e2 := readHex_exact 4 d2 (45 :: (d3 ++ 45 :: (d4 ++ 45 :: d5))) hne2 l2 h2
  have e3 := readHex_exact 4 d3 (45 :: (d4 ++ 45 :: d5)) hne3 l3 h3
  have e4 := readHex_exact 4 d4 (45 :: d5) hne4 l4 h4
  simp only [goParse, e1, e2, e3, e4, e5, expectDash, Option.bind_eq_bind, Option.some_bind,
    Option.pure_def]

/-! ### Lemmas about the generator and time extraction -/

theorem NewFromTime_fst (t : Nat) (rnd : Option Nat) (s : GenState) :
    (NewFromTime t rnd s).1 = putUint64 (genHi (tstime t)) ++ putUint64 (genLo
      (if s.lastts ≥ tstime t then (s.clockseq + 1) % 2 ^ 32 else s.clockseq)
      (if s.alwaysRandomizeNode || s.node == 0 then getRandomNode rnd else s.node)) := rfl

theorem NewFromTime_snd (t : Nat) (rnd : Option Nat) (s : GenState) :
    (NewFromTime t rnd s).2 = ⟨tstime t,
      if s.lastts ≥ tstime t then (s.clockseq + 1) % 2 ^ 32 else s.clockseq,
      s.node, s.alwaysRandomizeNode⟩ := rfl

theorem genHi_arith (t : Nat) (h : t < 2 ^ 60) :
    genHi t = t / 4096 * 65536 + 24576 + t % 4096 := by
  rw [genHi_eq, Nat.mod_eq_of_lt (show t * 16 < 2 ^ 64 by omega)]
  omega

theorem genLo_lt48 (cs nodeVal : Nat) (h : nodeVal < 2 ^ 48) : genLo cs nodeVal < 2 ^ 64 := by
  rw [genLo_eq cs nodeVal h]
  have : cs % 2 ^ 14 < 2 ^ 14 := Nat.mod_lt _ (by norm_num)
  omega

theorem tstime_eq (t : Nat) (h : tsoff + t / 100 < 2 ^ 64) : tstime t = tsoff + t / 100 :=
  Nat.mod_eq_of_lt h

set_option maxRecDepth 4096 in
theorem and_F0 : ∀ b, b < 256 → ((b &&& 0xF0 = 0x60) ↔ (96 ≤ b ∧ b < 112)) := by decide

set_option maxRecDepth 4096 in
theorem and_C0 : ∀ b, b < 256 → ((b &&& 0xC0 = 0x80) ↔ (128 ≤ b ∧ b < 192)) := by decide

theorem lexLt_words (h1 l1 h2 l2 : Nat) (hh1 : h1 < 2 ^ 64) (hl1 : l1 < 2 ^ 64)
    (hh2 : h2 < 2 ^ 64) (hl2 : l2 < 2 ^ 64) :
    lexLt (putUint64 h1 ++ putUint64 l1) (putUint64 h2 ++ putUint64 l2) = true ↔
      h1 * 2 ^ 64 + l1 < h2 * 2 ^ 64 + l2 := by
  have hmem : ∀ a b : Nat, ∀ x ∈ putUint64 a ++ putUint64 b, x < 256 := by
    intro a b x hx
    rcases List.mem_append.1 hx with hx | hx
    · exact putUint64_lt a x hx
    · exact putUint64_lt b x hx
  rw [lexLt_iff_val 256 _ _ (by simp [putUint64]) (hmem h1 l1) (hmem h2 l2),
    valBE_append, valBE_append, valBE_putUint64, valBE_putUint64, valBE_putUint64,
    valBE_putUint64, Nat.mod_eq_of_lt hh1, Nat.mod_eq_of_lt hl1, Nat.mod_eq_of_lt hh2,
    Nat.mod_eq_of_lt hl2]
  norm_num [putUint64]

theorem uuidNode_words (hi lo : Nat) :
    uuidNode (putUint64 hi ++ putUint64 lo) = lo % 2 ^ 48 := by
  show 0 * 2 ^ 56 + 0 * 2 ^ 48 + lo / 2 ^ 40 % 256 * 2 ^ 40 + lo / 2 ^ 32 % 256 * 2 ^ 32 +
    lo / 2 ^ 24 % 256 * 2 ^ 24 + lo / 2 ^ 16 % 256 * 2 ^ 16 + lo / 2 ^ 8 % 256 * 2 ^ 8 +
    lo % 256 = lo % 2 ^ 48
  omega

theorem getD_lt {l : List Nat} (h : ∀ b ∈ l, b < 256) (i : Nat) : l.getD i 0 < 256 := by
  rcases Nat.lt_or_ge i l.length with hi | hi
  · rw [List.getD_eq_getElem l 0 hi]
    exact h _ (List.getElem_mem hi)
  · rw [List.getD_eq_default l 0 hi]
    norm_num

theorem uint64BE_lt {l : List Nat} (h : ∀ b ∈ l, b < 256) : uint64BE l < 2 ^ 64 := by
  unfold uint64BE
  have h0 := getD_lt h 0
  have h1 := getD_lt h 1
  have h2 := getD_lt h 2
  have h3 := getD_lt h 3
  have h4 := getD_lt h 4
  have h5 := getD_lt h 5
  have h6 := getD_lt h 6
  have h7 := getD_lt h 7
  omega

theorem timeField_lt (u : List Nat) (h : ∀ b ∈ u, b < 256) : timeField u < 2 ^ 64 := by
  unfold timeField
  have := uint64BE_lt (l := u.take 8) (fun b hb => h b (List.take_subset _ _ hb))
  omega

theorem wrap_exact (T : Nat) (hT : T < 2 ^ 64)
    (hlo : -(2 ^ 63) ≤ ((T : Int) - (tsoff : Nat)) * 100)
    (hhi : ((T : Int) - (tsoff : Nat)) * 100 < 2 ^ 63) :
    wrapS64 (toInt64 ((T + 2 ^ 64 - tsoff) % 2 ^ 64) * 100) = ((T : Int) - (tsoff : Nat)) * 100 := by
  unfold wrapS64 toInt64 tsoff at *
  split <;> omega

theorem NewFromTime_chain (t1 t2 : Nat) (rnd1 rnd2 : Option Nat) (s : GenState) :
    (NewFromTime t2 rnd2 (NewFromTime t1 rnd1 s).2).1
      = putUint64 (genHi (tstime t2)) ++ putUint64 (genLo
        (if tstime t1 ≥ tstime t2 then
          ((if s.lastts ≥ tstime t1 then (s.clockseq + 1) % 2 ^ 32 else s.clockseq) + 1) % 2 ^ 32
         else (if s.lastts ≥ tstime t1 then (s.clockseq + 1) % 2 ^ 32 else s.clockseq))
        (if s.alwaysRandomizeNode || s.node == 0 then getRandomNode rnd2 else s.node)) := rfl

/-! ### Claim theorems -/

/-- C9: parsing the canonical string `"1ec0450e-5a64-6ca0-80fc-abd6a5cdb616"` succeeds, and
`Node` of the resulting identifier returns exactly 188938393073174, which is the 48-bit
big-endian integer formed by bytes 10 through 15. -/
theorem c9_parse_node_example :
    (goParse [49, 101, 99, 48, 52, 53, 48, 101, 45, 53, 97, 54, 52, 45, 54, 99, 97, 48, 45,
        56, 48, 102, 99, 45, 97, 98, 100, 54, 97, 53, 99, 100, 98, 54, 49, 54]).map uuidNode
      = some 188938393073174 ∧
    (goParse [49, 101, 99, 48, 52, 53, 48, 101, 45, 53, 97, 54, 52, 45, 54, 99, 97, 48, 45,
        56, 48, 102, 99, 45, 97, 98, 100, 54, 97, 53, 99, 100, 98, 54, 49, 54]).map
        (fun u => valBE 256 (u.drop 10))
      = some 188938393073174 := by
  constructor <;> rfl

/-- C7 counterexample: the input `"1-2-3-4-5"` (codes below) matches none of the strict
widths 8/4/4/4/12, yet `Parse` succeeds on it, so `Parse` does not return an error for
every non-matching string. -/
theorem c7_parse_lenient_cex :
    (goParse [49, 45, 50, 45, 51, 45, 52, 45, 53]).isSome = true := by decide

/-- C7 (amended): `Parse` succeeds on every string matching the strict shape — five
hyphen-separated hexadecimal groups of widths 8/4/4/4/12, upper or lower case — and
returns the identifier assembled from the five group values; but it is lenient rather
than strict: it does not reject every non-matching string (shorter digit groups and
trailing bytes are also accepted, as the counterexample shows). -/
theorem c7_parse_accepts_strict (d1 d2 d3 d4 d5 : List Nat)
    (h1 : allHex d1 = true) (l1 : d1.length = 8)
    (h2 : allHex d2 = true) (l2 : d2.length = 4)
    (h3 : allHex d3 = true) (l3 : d3.length = 4)
    (h4 : allHex d4 = true) (l4 : d4.length = 4)
    (h5 : allHex d5 = true) (l5 : d5.length = 12) :
    goParse (d1 ++ 45 :: (d2 ++ 45 :: (d3 ++ 45 :: (d4 ++ 45 :: d5))))
      = some (mkUUID (hexListVal d1) (hexListVal d2) (hexListVal d3) (hexListVal d4)
          (hexListVal d5)) :=
  parse_groups d1 d2 d3 d4 d5 h1 l1 h2 l2 h3 l3 h4 l4 h5 l5

/-- Witness for C7: the strict all-zero canonical string is accepted and parses to the
nil identifier. -/
theorem c7_parse_accepts_strict_witness :
    allHex (List.replicate 8 48) = true ∧
    goParse (List.replicate 8 48 ++ 45 :: (List.replicate 4 48 ++ 45 :: (List.replicate 4 48
        ++ 45 :: (List.replicate 4 48 ++ 45 :: List.replicate 12 48))))
      = some (mkUUID (hexListVal (List.replicate 8 48)) (hexListVal (List.replicate 4 48))
          (hexListVal (List.replicate 4 48)) (hexListVal (List.replicate 4 48))
          (hexListVal (List.replicate 12 48))) :=
  ⟨by decide, c7_parse_accepts_strict _ _ _ _ _ (by decide) (by decide) (by decide) (by decide)
    (by decide) (by decide) (by decide) (by decide) (by decide) (by decide)⟩

/-- C6 counterexample: `ParseBytes` on a 17-byte input returns a value with no error, so
it does not fail with a length error for every input whose length is not 16. -/
theorem c6_parseBytes_no_length_error_cex :
    (parseBytes (List.replicate 17 0)).isSome = true := by decide

/-- C6 (amended): `ParseBytes` performs no length validation at all: on any input of at
least 16 bytes it returns the first 16 bytes copied verbatim with no error (extra bytes
are ignored), and on any input of fewer than 16 bytes it panics on a slice bounds check
(modelled as `none`) instead of returning a length error. -/
theorem c6_parseBytes_behavior (bs : List Nat) (h : ∀ b ∈ bs, b < 256) :
    (16 ≤ bs.length → parseBytes bs = some (bs.take 16)) ∧
    (bs.length < 16 → parseBytes bs = none) := by
  constructor
  · intro hlen
    unfold parseBytes
    rw [if_pos hlen]
    have ht8 : (bs.take 8).length = 8 := by simp [List.length_take]; omega
    have hd8 : ((bs.drop 8).take 8).length = 8 := by
      simp [List.length_take, List.length_drop]; omega
    rw [putUint64_uint64BE8 _ ht8 (fun x hx => h x (List.take_subset _ _ hx)),
      putUint64_uint64BE8 _ hd8 (fun x hx => h x (List.drop_subset _ _ (List.take_subset _ _ hx))),
      show (16 : Nat) = 8 + 8 from rfl, List.take_add]
  · intro hlen
    unfold parseBytes
    rw [if_neg (by omega)]

/-- Witness for C6: a 17-byte input is accepted with its first 16 bytes, and a 3-byte
input is rejected by panic. -/
theorem c6_parseBytes_behavior_witness :
    ((16 ≤ (List.replicate 17 (7 : Nat)).length →
        parseBytes (List.replicate 17 7) = some ((List.replicate 17 7).take 16)) ∧
      ((List.replicate 17 (7 : Nat)).length < 16 → parseBytes (List.replicate 17 7) = none)) ∧
    ((16 ≤ [1, 2, 3].length → parseBytes [1, 2, 3] = some ([1, 2, 3].take 16)) ∧
      ([1, 2, 3].length < 16 → parseBytes [1, 2, 3] = none)) :=
  ⟨c6_parseBytes_behavior (List.replicate 17 7) (by decide),
   c6_parseBytes_behavior [1, 2, 3] (by decide)⟩

/-- C3 counterexample: the operation named `Compare` does not order by all 16 bytes: for
`a` = fifteen zero bytes then 1 and `b` = sixteen zero bytes, the full 16-byte order has
`b < a` strictly, yet `a.Compare(b)` returns true, because `Compare` inspects only the
first 8 bytes. -/
theorem c3_compare_not_full_order_cex :
    uuidCompare [0, 0, 0, 0, 0, 0, 0, 0, 0, 0, 0, 0, 0, 0, 0, 1] (List.replicate 16 0) = true ∧
    lexLt (List.replicate 16 0) [0, 0, 0, 0, 0, 0, 0, 0, 0, 0, 0, 0, 0, 0, 0, 1] = true := by
  decide

/-- C3 (amended): the full 16-byte lexicographic order is implemented by
`UUIDB64Slice.Less` (`bytes.Compare` over all 16 bytes), while the operation named
`Compare` orders by only the first 8 bytes (returning whether the receiver's timestamp
word is ≤ the argument's), and the legacy `UUIDSlice.Less` likewise compares only the
first 8 bytes; the comparators are distinct explicit operations and are not collapsed. -/
theorem c3_comparators (u v : List Nat) (hu : WF u) (hv : WF v) :
    (uuidB64Less u v = true ↔ valBE 256 u < valBE 256 v) ∧
    (uuidCompare u v = true ↔ valBE 256 (u.take 8) ≤ valBE 256 (v.take 8)) ∧
    (uuidSliceLess u v = true ↔ valBE 256 (u.take 8) < valBE 256 (v.take 8)) := by
  obtain ⟨hlu, hbu⟩ := hu
  obtain ⟨hlv, hbv⟩ := hv
  have htu : (u.take 8).length = 8 := by simp [List.length_take, hlu]
  have htv : (v.take 8).length = 8 := by simp [List.length_take, hlv]
  refine ⟨?_, ?_, ?_⟩
  · unfold uuidB64Less
    exact lexLt_iff_val 256 u v (by omega) hbu hbv
  · simp only [uuidCompare, decide_eq_true_eq]
    rw [uint64BE_val8 _ htu, uint64BE_val8 _ htv]
  · simp only [uuidSliceLess, decide_eq_true_eq]
    rw [uint64BE_val8 _ htu, uint64BE_val8 _ htv]

/-- Witness for C3 at two concrete well-formed identifiers. -/
theorem c3_comparators_witness :
    (uuidB64Less (List.replicate 16 0) [0, 0, 0, 0, 0, 0, 0, 0, 0, 0, 0, 0, 0, 0, 0, 1] = true ↔
      valBE 256 (List.replicate 16 0) < valBE 256 [0, 0, 0, 0, 0, 0, 0, 0, 0, 0, 0, 0, 0, 0, 0, 1]) ∧
    (uuidCompare (List.replicate 16 0) [0, 0, 0, 0, 0, 0, 0, 0, 0, 0, 0, 0, 0, 0, 0, 1] = true ↔
      valBE 256 ((List.replicate 16 (0 : Nat)).take 8)
        ≤ valBE 256 (([0, 0, 0, 0, 0, 0, 0, 0, 0, 0, 0, 0, 0, 0, 0, 1] : List Nat).take 8)) ∧
    (uuidSliceLess (List.replicate 16 0) [0, 0, 0, 0, 0, 0, 0, 0, 0, 0, 0, 0, 0, 0, 0, 1] = true ↔
      valBE 256 ((List.replicate 16 (0 : Nat)).take 8)
        < valBE 256 (([0, 0, 0, 0, 0, 0, 0, 0, 0, 0, 0, 0, 0, 0, 0, 1] : List Nat).take 8)) :=
  c3_comparators _ _ (by decide) (by decide)

/-- C4: for every well-formed 16-byte identifier, including the nil all-zero value,
parsing its canonical dashed-hex formatting returns it exactly, and parsing its compact
base-64-alphabet formatting returns it exactly. -/
theorem c4_roundtrip (u : List Nat) (h : WF u) :
    goParse (goString u) = some u ∧ parseB64 (b64String u) = some u := by
  obtain ⟨hlen, hbytes⟩ := h
  constructor
  · obtain ⟨b0, b1, b2, b3, b4, b5, b6, b7, b8, b9, b10, b11, b12, b13, b14, b15, rfl⟩ :=
      len16_explicit hlen
    have q0 : b0 < 256 := hbytes _ (by simp)
    have q1 : b1 < 256 := hbytes _ (by simp)
    have q2 : b2 < 256 := hbytes _ (by simp)
    have q3 : b3 < 256 := hbytes _ (by simp)
    have q4 : b4 < 256 := hbytes _ (by simp)
    have q5 : b5 < 256 := hbytes _ (by simp)
    have q6 : b6 < 256 := hbytes _ (by simp)
    have q7 : b7 < 256 := hbytes _ (by simp)
    have q8 : b8 < 256 := hbytes _ (by simp)
    have q9 : b9 < 256 := hbytes _ (by simp)
    have q10 : b10 < 256 := hbytes _ (by simp)
    have q11 : b11 < 256 := hbytes _ (by simp)
    have q12 : b12 < 256 := hbytes _ (by simp)
    have q13 : b13 < 256 := hbytes _ (by simp)
    have q14 : b14 < 256 := hbytes _ (by simp)
    have q15 : b15 < 256 := hbytes _ (by simp)
    have m1 : ∀ x ∈ [b0, b1, b2, b3], x < 256 := by intro x hx; simp at hx; omega
    have m2 : ∀ x ∈ [b4, b5], x < 256 := by intro x hx; simp at hx; omega
    have m3 : ∀ x ∈ [b6, b7], x < 256 := by intro x hx; simp at hx; omega
    have m4 : ∀ x ∈ [b8, b9], x < 256 := by intro x hx; simp at hx; omega
    have m5 : ∀ x ∈ [b10, b11, b12, b13, b14, b15], x < 256 := by intro x hx; simp at hx; omega
    have hshape : goString [b0, b1, b2, b3, b4, b5, b6, b7, b8, b9, b10, b11, b12, b13, b14, b15]
        = hexBytes [b0, b1, b2, b3] ++ 45 :: (hexBytes [b4, b5] ++ 45 :: (hexBytes [b6, b7]
          ++ 45 :: (hexBytes [b8, b9] ++ 45 :: hexBytes [b10, b11, b12, b13, b14, b15]))) := rfl
    rw [hshape, parse_groups _ _ _ _ _ (hexBytes_allHex _ m1) rfl (hexBytes_allHex _ m2) rfl
      (hexBytes_allHex _ m3) rfl (hexBytes_allHex _ m4) rfl (hexBytes_allHex _ m5) rfl,
      hexListVal_hexBytes _ m1, hexListVal_hexBytes _ m2, hexListVal_hexBytes _ m3,
      hexListVal_hexBytes _ m4, hexListVal_hexBytes _ m5]
    unfold mkUUID
    rw [putUint32_valBE _ _ _ _ q0 q1 q2 q3, putUint16_valBE _ _ q4 q5, putUint16_valBE _ _ q6 q7,
      putUint16_valBE _ _ q8 q9, putUint64_valBE6 _ _ _ _ _ _ q10 q11 q12 q13 q14 q15]
    rfl
  · unfold parseB64 b64String
    rw [mapM_alphaIdx _ (encGroups_lt u hbytes), Option.bind_eq_bind, Option.some_bind,
      decGroups_encGroups u hbytes, Option.some_bind]
    simp [hlen]

/-- Witness for C4 at the nil identifier. -/
theorem c4_roundtrip_witness :
    WF (List.replicate 16 0) ∧
    (goParse (goString (List.replicate 16 0)) = some (List.replicate 16 0) ∧
      parseB64 (b64String (List.replicate 16 0)) = some (List.replicate 16 0)) :=
  ⟨by decide, c4_roundtrip _ (by decide)⟩

/-- C1: for well-formed 16-byte identifiers a and b, raw byte order agrees with the
lexicographic string order of the compact base-64-alphabet encodings: a < b over the 16
raw bytes iff String(a) < String(b) byte-wise on the encoded strings. -/
theorem c1_b64_order_iso (u v : List Nat) (hu : WF u) (hv : WF v) :
    lexLt u v = true ↔ lexLt (b64String u) (b64String v) = true := by
  obtain ⟨hlu, hbu⟩ := hu
  obtain ⟨hlv, hbv⟩ := hv
  have hdu := encGroups_lt u hbu
  have hdv := encGroups_lt v hbv
  have h1u : u.length % 3 = 1 := by rw [hlu]
  have h1v : v.length % 3 = 1 := by rw [hlv]
  have hlenEq : (encGroups u).length = (encGroups v).length := by
    rw [encGroups_len1 u h1u, encGroups_len1 v h1v, hlu, hlv]
  have e5 : lexLt (b64String u) (b64String v) = lexLt (encGroups u) (encGroups v) :=
    lexLt_map alphaCode 64 alphaCode_mono _ _ hdu hdv
  rw [e5, lexLt_iff_val 256 u v (by omega) hbu hbv,
    lexLt_iff_val 64 (encGroups u) (encGroups v) hlenEq hdu hdv,
    encGroups_val1 u h1u hbu, encGroups_val1 v h1v hbv]
  omega

/-- Witness for C1 at two concrete well-formed identifiers. -/
theorem c1_b64_order_iso_witness :
    WF (List.replicate 16 0) ∧
    (lexLt (List.replicate 16 0) [0, 0, 0, 0, 0, 0, 0, 0, 0, 0, 0, 0, 0, 0, 0, 1] = true ↔
      lexLt (b64String (List.replicate 16 0))
        (b64String [0, 0, 0, 0, 0, 0, 0, 0, 0, 0, 0, 0, 0, 0, 0, 1]) = true) :=
  ⟨by decide, c1_b64_order_iso _ _ (by decide) (by decide)⟩

/-- C5 counterexample: `SetNode` accepts any uint64, and a stored node with bit 62 set
(here 2^62, reachable via `SetNode`) makes generation emit an identifier whose byte-8
top two bits are `11`, not the variant `10` — the claim fails from that reachable
generator state. -/
theorem c5_variant_violated_cex :
    setNode 4611686018427387904 ⟨0, 0, 5, true⟩ = ⟨0, 0, 4611686018427387904, false⟩ ∧
    ¬((NewFromTime 0 none ⟨0, 0, 4611686018427387904, false⟩).1.getD 8 0 &&& 0xC0 = 0x80) :=
  ⟨rfl, by decide⟩

/-- C5 (amended): every identifier returned by generation is not nil and has the high
nibble of byte 6 equal to 0x6; its byte-8 top two bits equal `10` provided the stored
node value is below 2^48 (as all built-in node sources guarantee) or always-randomize
mode is on — `SetNode` with a value ≥ 2^48 can violate the variant bits. -/
theorem c5_generated_invariants (t : Nat) (rnd : Option Nat) (s : GenState)
    (hnode : s.node < 2 ^ 48 ∨ s.alwaysRandomizeNode = true) :
    isNil (NewFromTime t rnd s).1 = false ∧
    (NewFromTime t rnd s).1.getD 6 0 &&& 0xF0 = 0x60 ∧
    (NewFromTime t rnd s).1.getD 8 0 &&& 0xC0 = 0x80 := by
  rw [NewFromTime_fst]
  have hne : (if s.alwaysRandomizeNode || s.node == 0 then getRandomNode rnd else s.node)
      < 2 ^ 48 := by
    split
    · exact getRandomNode_lt rnd
    · next hcond =>
      rcases hnode with h | h
      · exact h
      · exact absurd (by rw [h]; rfl) hcond
  generalize hN : (if s.alwaysRandomizeNode || s.node == 0 then getRandomNode rnd else s.node)
    = n at hne ⊢
  generalize hC : (if s.lastts ≥ tstime t then (s.clockseq + 1) % 2 ^ 32 else s.clockseq)
    = cs
  generalize tstime t = tv
  have hhi := genHi_eq tv
  have hq : tv * 16 % 2 ^ 64 / 2 ^ 16 < 2 ^ 48 := by omega
  have hm : tv % 2 ^ 12 < 2 ^ 12 := by omega
  have hgenhi_lt := genHi_lt tv
  have hlo := genLo_eq cs n hne
  have hcsf : cs % 2 ^ 14 < 2 ^ 14 := Nat.mod_lt _ (by norm_num)
  have hlo_lt := genLo_lt48 cs n hne
  refine ⟨?_, ?_, ?_⟩
  · unfold isNil
    rw [take8_append, drop8_append, uint64BE_putUint64, uint64BE_putUint64,
      Nat.mod_eq_of_lt hgenhi_lt, Nat.mod_eq_of_lt hlo_lt]
    have hnz : genHi tv ||| genLo cs n ≠ 0 := lor_ne_zero_right _ _ (by omega)
    simp [hnz]
  · show genHi tv / 2 ^ 8 % 256 &&& 0xF0 = 0x60
    exact (and_F0 _ (by omega)).mpr ⟨by omega, by omega⟩
  · show genLo cs n / 2 ^ 56 % 256 &&& 0xC0 = 0x80
    exact (and_C0 _ (by omega)).mpr ⟨by omega, by omega⟩

/-- Witness for C5 at a concrete state with a small stored node. -/
theorem c5_generated_invariants_witness :
    ((⟨0, 0, 1, false⟩ : GenState).node < 2 ^ 48 ∨
      (⟨0, 0, 1, false⟩ : GenState).alwaysRandomizeNode = true) ∧
    (isNil (NewFromTime 0 none ⟨0, 0, 1, false⟩).1 = false ∧
      (NewFromTime 0 none ⟨0, 0, 1, false⟩).1.getD 6 0 &&& 0xF0 = 0x60 ∧
      (NewFromTime 0 none ⟨0, 0, 1, false⟩).1.getD 8 0 &&& 0xC0 = 0x80) :=
  ⟨Or.inl (by norm_num), c5_generated_invariants 0 none _ (Or.inl (by norm_num))⟩

/-- C10 (implicit): after `SetNode(0)` the stored node is 0 and always-randomize is off,
yet every generated identifier carries a fresh per-call random node: the node field of
the result equals exactly the per-call random draw (48-bit-masked with the multicast
bit 40 forced on success, or zero when the random source fails), and the stored node
remains 0 afterwards, so every subsequent call randomizes again. -/
theorem c10_setNode_zero_randomizes (s : GenState) (t : Nat) (rnd : Option Nat) :
    uuidNode (NewFromTime t rnd (setNode 0 s)).1 = getRandomNode rnd ∧
    (NewFromTime t rnd (setNode 0 s)).2.node = 0 ∧
    (NewFromTime t rnd (setNode 0 s)).2.alwaysRandomizeNode = false ∧
    getRandomNode none = 0 ∧
    (∀ x, getRandomNode (some x) < 2 ^ 48 ∧ Nat.testBit (getRandomNode (some x)) 40 = true) := by
  refine ⟨?_, rfl, rfl, rfl, ?_⟩
  · rw [NewFromTime_fst,
      show (if (setNode 0 s).alwaysRandomizeNode || (setNode 0 s).node == 0
        then getRandomNode rnd else (setNode 0 s).node) = getRandomNode rnd from rfl,
      uuidNode_words, genLo_eq _ _ (getRandomNode_lt rnd)]
    have hg := getRandomNode_lt rnd
    omega
  · intro x
    refine ⟨getRandomNode_lt (some x), ?_⟩
    show Nat.testBit (x % 2 ^ 64 % 2 ^ 48 ||| 0x0000010000000000) 40 = true
    rw [Nat.testBit_or, show (0x0000010000000000 : Nat) = 2 ^ 40 from rfl,
      Nat.testBit_two_pow_self]
    simp

set_option maxRecDepth 10000 in
/-- C8 counterexample: a conforming identifier whose embedded 60-bit timestamp is
2^60 - 1 makes the int64 multiplication `int64(t-tsoff) * 100` overflow, so `Time` does
not return the instant obtained by subtracting the epoch offset and converting the
100ns ticks. -/
theorem c8_time_overflow_cex :
    goTime [255, 255, 255, 255, 255, 255, 111, 255, 191, 255, 255, 255, 255, 255, 255, 255]
      ≠ some ((((timeField [255, 255, 255, 255, 255, 255, 111, 255, 191, 255, 255, 255, 255,
          255, 255, 255] : Nat) : Int) - (tsoff : Nat)) * 100) := by decide

/-- C8 (amended): for every well-formed identifier failing the version/variant check,
`Time` returns the zero instant (`none`) rather than an error; for every conforming
identifier whose recombined 60-bit timestamp `T` satisfies that `(T - tsoff) * 100`
fits in a signed 64-bit value, `Time` returns exactly that many nanoseconds — outside
that range the int64 arithmetic wraps (see the counterexample). -/
theorem c8_time_extraction (u : List Nat) (hWF : WF u) :
    ((u.getD 6 0 &&& 0xF0 == 0x60 && (u.getD 8 0 &&& 0xC0 == 0x80)) = false →
      goTime u = none) ∧
    ((u.getD 6 0 &&& 0xF0 == 0x60 && (u.getD 8 0 &&& 0xC0 == 0x80)) = true →
      -(2 ^ 63) ≤ ((timeField u : Int) - (tsoff : Nat)) * 100 →
      ((timeField u : Int) - (tsoff : Nat)) * 100 < 2 ^ 63 →
      goTime u = some (((timeField u : Int) - (tsoff : Nat)) * 100)) := by
  constructor
  · intro hcond
    unfold goTime
    split
    · next htrue => rw [hcond] at htrue; cases htrue
    · rfl
  · intro hcond h1 h2
    unfold goTime
    split
    · exact congrArg some (wrap_exact (timeField u) (timeField_lt u hWF.2) h1 h2)
    · next hfalse => exact absurd hcond hfalse

set_option maxRecDepth 10000 in
/-- Witness for C8: the identifier parsed from the C9 example string is conforming and
in range, and `Time` returns the exact tick-converted instant on it. -/
theorem c8_time_extraction_witness :
    WF [30, 192, 69, 14, 90, 100, 108, 160, 128, 252, 171, 214, 165, 205, 182, 22] ∧
    goTime [30, 192, 69, 14, 90, 100, 108, 160, 128, 252, 171, 214, 165, 205, 182, 22]
      = some ((((timeField [30, 192, 69, 14, 90, 100, 108, 160, 128, 252, 171, 214, 165,
          205, 182, 22] : Nat) : Int) - (tsoff : Nat)) * 100) :=
  ⟨by decide, (c8_time_extraction _ (by decide)).2 (by decide) (by decide) (by decide)⟩

/-- C2 counterexample: from the reachable state with clock sequence 16382 and two
serialized calls at the same instant, the sequence field wraps mod 2^14 and the second
identifier compares strictly below the first — the claimed ordering fails. -/
theorem c2_monotone_cex :
    lexLt (NewFromTime 0 none ⟨tstime 0, 16382, 1, false⟩).1
        (NewFromTime 0 none (NewFromTime 0 none ⟨tstime 0, 16382, 1, false⟩).2).1 = false ∧
    (NewFromTime 0 none ⟨tstime 0, 16382, 1, false⟩).1
      ≠ (NewFromTime 0 none (NewFromTime 0 none ⟨tstime 0, 16382, 1, false⟩).2).1 ∧
    lexLt (NewFromTime 0 none (NewFromTime 0 none ⟨tstime 0, 16382, 1, false⟩).2).1
        (NewFromTime 0 none ⟨tstime 0, 16382, 1, false⟩).1 = true :=
  ⟨by decide, by decide, by decide⟩

/-- C2 (amended): for serialized generation the identifier for `t1` is strictly below
the identifier for `t2` whenever `t1 ≤ t2` (as non-negative Unix nanoseconds), the tick
values stay below 2^60 (before year ~5236), the stored clock sequence is a uint32 whose
low 14 bits are not within 2 of wrapping, and the node in use is below 2^48 (stored
node < 2^48 or always-randomize on) — clock-sequence wrap-around within one tick (see
the counterexample), node values ≥ 2^48, and tick overflow break the claimed order. -/
theorem c2_serialized_monotone (t1 t2 : Nat) (rnd1 rnd2 : Option Nat) (s : GenState)
    (ht : t1 ≤ t2)
    (hrange : tsoff + t2 / 100 < 2 ^ 60)
    (hcs : s.clockseq < 2 ^ 32)
    (hcsw : s.clockseq % 2 ^ 14 < 2 ^ 14 - 2)
    (hnode : s.node < 2 ^ 48 ∨ s.alwaysRandomizeNode = true) :
    lexLt (NewFromTime t1 rnd1 s).1 (NewFromTime t2 rnd2 (NewFromTime t1 rnd1 s).2).1
      = true := by
  have hdiv : t1 / 100 ≤ t2 / 100 := Nat.div_le_div_right ht
  have htv1 : tstime t1 = tsoff + t1 / 100 := tstime_eq _ (by omega)
  have htv2 : tstime t2 = tsoff + t2 / 100 := tstime_eq _ (by omega)
  rw [NewFromTime_fst, NewFromTime_chain]
  have hn : ∀ rnd : Option Nat,
      (if s.alwaysRandomizeNode || s.node == 0 then getRandomNode rnd else s.node) < 2 ^ 48 := by
    intro rnd
    split
    · exact getRandomNode_lt rnd
    · next hcond =>
      rcases hnode with h | h
      · exact h
      · exact absurd (by rw [h]; rfl) hcond
  have hn1 := hn rnd1
  have hn2 := hn rnd2
  generalize hN1 : (if s.alwaysRandomizeNode || s.node == 0 then getRandomNode rnd1 else s.node)
    = n1 at hn1 ⊢
  generalize hN2 : (if s.alwaysRandomizeNode || s.node == 0 then getRandomNode rnd2 else s.node)
    = n2 at hn2 ⊢
  generalize hC1 : (if s.lastts ≥ tstime t1 then (s.clockseq + 1) % 2 ^ 32 else s.clockseq)
    = cs1
  have hcs1lt : cs1 < 2 ^ 32 := by rw [← hC1]; split <;> omega
  have hcs1w : cs1 % 2 ^ 14 < 2 ^ 14 - 1 := by rw [← hC1]; split <;> omega
  rw [lexLt_words _ _ _ _ (genHi_lt _) (genLo_lt48 _ _ hn1) (genHi_lt _) (genLo_lt48 _ _ hn2),
    genLo_eq _ _ hn1, genLo_eq _ _ hn2]
  rcases Nat.lt_or_ge (tstime t1) (tstime t2) with hlt | hge
  · rw [if_neg (by omega)]
    have hH1 := genHi_arith (tstime t1) (by omega)
    have hH2 := genHi_arith (tstime t2) (by omega)
    have hmono : genHi (tstime t1) < genHi (tstime t2) := by omega
    have hcsf : cs1 % 2 ^ 14 < 2 ^ 14 := Nat.mod_lt _ (by norm_num)
    omega
  · have heq : tstime t1 = tstime t2 := by omega
    rw [if_pos (by omega), heq]
    have hstep : (cs1 + 1) % 2 ^ 32 % 2 ^ 14 = cs1 % 2 ^ 14 + 1 := by omega
    omega

/-- Witness for C2 at two concrete serialized calls 100ns apart. -/
theorem c2_serialized_monotone_witness :
    (0 : Nat) ≤ 100 ∧
    lexLt (NewFromTime 0 none ⟨0, 0, 1, false⟩).1
      (NewFromTime 100 none (NewFromTime 0 none ⟨0, 0, 1, false⟩).2).1 = true :=
  ⟨by norm_num, c2_serialized_monotone 0 100 none none _ (by norm_num) (by decide) (by decide)
    (by decide) (Or.inl (by decide))⟩

end Gouuidv6
